import Mathlib

/-!
Verification development for the CDSCO SEC keyword-search tool
(`deepseek_python_20250617_c7e4c1.py`).

The pipeline is embedded shallowly: Python strings become `List Char`,
response bodies become `List Nat` (byte values), and each call to an
external collaborator (HTTP fetch, pdfplumber, PyPDF2, OCR) is an
oracle value of type `Except Unit _` — `.error ()` models a raised
exception, `.ok v` models the value the library returned.  Characters
are ASCII-modelled: `Char.toLower` stands for Python's `str.lower`
and the ASCII whitespace set stands for Python's `\s` / `str.strip`.
-/

namespace CDSCO

/-- A Python string, modelled as its list of characters. -/
abbrev Str := List Char

/-- The ASCII whitespace characters recognised by Python's `\s` and
`str.strip()`: space, tab, newline, carriage return, vertical tab, form feed. -/
def pyIsSpace (c : Char) : Bool :=
  c = ' ' || c = '\t' || c = '\n' || c = '\r' || c = '\x0b' || c = '\x0c'

/-- `s.lower()`, modelled per character. -/
def pyLower (s : Str) : Str := s.map Char.toLower

/-- `s.strip()`: drop leading and trailing whitespace. -/
def pyStrip (s : Str) : Str :=
  ((s.dropWhile pyIsSpace).reverse.dropWhile pyIsSpace).reverse

/-- Worker for `collapseWS`; the flag records whether the scanner is
currently inside a whitespace run whose single replacement space has
already been emitted. -/
def collapseGo (inRun : Bool) : Str → Str
  | [] => []
  | c :: cs =>
    if pyIsSpace c then
      if inRun then collapseGo true cs
      else ' ' :: collapseGo true cs
    else c :: collapseGo false cs

/-- `re.sub(r'\s+', ' ', s)`: collapse every whitespace run to one space. -/
def collapseWS (s : Str) : Str := collapseGo false s

/-- `t.startswith(pat)` for lists over any decidable alphabet
(used both for byte bodies and for character strings). -/
def startswith {α : Type} [DecidableEq α] : List α → List α → Bool
  | _, [] => true
  | [], _ :: _ => false
  | c :: cs, p :: ps => if c = p then startswith cs ps else false

/-- Worker for `finditer`.  `sk` counts characters still covered by the
match just emitted (so that matches do not overlap), `i` is the absolute
position of the head of the remaining text. -/
def finditGo (pat : Str) : Nat → Str → Nat → List (Nat × Nat)
  | 0, [], i => if pat = [] then [(i, i)] else []
  | _ + 1, [], _ => []
  | 0, c :: cs, i =>
    if pat = [] then (i, i) :: finditGo pat 0 cs (i + 1)
    else if startswith (c :: cs) pat then
      (i, i + pat.length) :: finditGo pat (pat.length - 1) cs (i + 1)
    else finditGo pat 0 cs (i + 1)
  | sk + 1, _ :: cs, i => finditGo pat sk cs (i + 1)

/-- `list(re.finditer(pat, t))` for a literal pattern `pat`: the spans
`(start, end)` of the leftmost non-overlapping occurrences of `pat` in `t`.
An empty pattern matches at every position, as in Python. -/
def finditer (pat t : Str) : List (Nat × Nat) := finditGo pat 0 t 0

/-- Spec-side notion: keyword `k` occurs case-insensitively at position
`i` of text `t`, taken as a literal substring. -/
def ciOccursAt (k t : Str) (i : Nat) : Bool :=
  startswith ((pyLower t).drop i) (pyLower k)

/-- `big` contains `seg` as a contiguous segment. -/
def containsSeg (big seg : Str) : Prop := ∃ l r, big = l ++ seg ++ r

/-- `max(0, match.start() - 30)`, the left snippet bound (line 163). -/
def snipStart (mstart : Nat) : Int := max 0 ((mstart : Int) - 30)

/-- `min(len(text), match.end() + 30)`, the right snippet bound (line 164). -/
def snipEnd (text : Str) (mend : Nat) : Int :=
  min (text.length : Int) ((mend : Int) + 30)

/-- `text[start:end].replace('\n', ' ').strip()` for one match span
(lines 163-166). -/
def snippet (text : Str) (m : Nat × Nat) : Str :=
  let s := (snipStart m.1).toNat
  let e := (snipEnd text m.2).toNat
  pyStrip (((text.drop s).take (e - s)).map fun c => if c = '\n' then ' ' else c)

deriving instance DecidableEq for Except

/-- The three text-extraction strategies of `extract_text`, in their
source order. -/
inductive Strategy
  | plumber
  | pypdf
  | ocr
deriving DecidableEq

/-- One candidate document, together with the outcomes of the external
calls its processing triggers.  `fetch` is `requests.get(url).content`;
the three page lists are what pdfplumber, PyPDF2 and pytesseract
respectively would deliver for this document (`.error ()` = the call
raises). -/
structure FetchedDoc where
  title : Str
  url : Str
  fetch : Except Unit (List Nat)
  plumberPages : Except Unit (List Str)
  pypdfPages : Except Unit (List Str)
  ocrPages : Except Unit (List Str)
deriving DecidableEq

/-- One entry of the results list built in `search_documents`
(lines 168-174). -/
structure SearchResult where
  title : Str
  url : Str
  count : Nat
  samples : List Str
  extraction_method : Str
deriving DecidableEq

/-- The page loop shared by the pdfplumber and PyPDF2 branches
(lines 99-103 and 114-118): skip falsy pages, collapse whitespace,
strip, and append a single space after each page. -/
def pagesText (pages : List Str) : Str :=
  pages.foldl (fun text p =>
    if p ≠ [] then text ++ pyStrip (collapseWS p) ++ [' '] else text) []

/-- `extract_text_with_ocr` (lines 63-75): concatenate the raw OCR text
of every page followed by a newline; any exception yields `""`. -/
def extract_text_with_ocr (ocrPages : Except Unit (List Str)) : Str :=
  match ocrPages with
  | .error _ => []
  | .ok pages => pages.foldl (fun text p => text ++ p ++ ['\n']) []

/-- One text-layer strategy attempt: `none` when the library raises or
the accumulated text strips to empty, otherwise the accumulated text
(lines 97-108 / 111-123). -/
def stratOutput (pages : Except Unit (List Str)) : Option Str :=
  match pages with
  | .error _ => none
  | .ok ps => if pyStrip (pagesText ps) ≠ [] then some (pagesText ps) else none

/-- `b'%PDF'` as byte values. -/
def pdfHeader : List Nat := [37, 80, 68, 70]

/-- `extract_text` (lines 77-134).  Besides the extracted text it
returns the list of strategies that were actually invoked, in order,
making the control flow of the fallback pipeline observable. -/
def extract_text (d : FetchedDoc) : Str × List Strategy :=
  match d.fetch with
  | .error _ => ([], [])
  | .ok content =>
    if startswith content pdfHeader = false then ([], [])
    else
      match stratOutput d.plumberPages with
      | some t => (t, [.plumber])
      | none =>
        match stratOutput d.pypdfPages with
        | some t => (t, [.plumber, .pypdf])
        | none => (extract_text_with_ocr d.ocrPages, [.plumber, .pypdf, .ocr])

/-- The per-document body of the loop in `search_documents`
(lines 144-174): extract, search with the lowered-and-stripped keyword,
and build a results entry when there is at least one match. -/
def processDoc (keyword : Str) (d : FetchedDoc) : Option SearchResult :=
  let kw := pyStrip (pyLower keyword)
  let text := (extract_text d).1
  if text = [] then none
  else
    let found := finditer (pyLower kw) (pyLower text)
    if found = [] then none
    else some
      { title := d.title
        url := d.url
        count := found.length
        samples := (found.take 3).map (snippet text)
        extraction_method :=
          if 0 < text.length then "text".toList else "ocr".toList }

/-- `search_documents` (lines 136-179): the results list, in discovery
order, of the documents with at least one match. -/
def search_documents (docs : List FetchedDoc) (keyword : Str) : List SearchResult :=
  docs.filterMap (processDoc keyword)

/-- Insert a result into a descending-by-count list, after every entry
with a strictly larger count and before every other entry. -/
def insertByCount (r : SearchResult) : List SearchResult → List SearchResult
  | [] => [r]
  | x :: xs => if r.count < x.count then x :: insertByCount r xs else r :: x :: xs

/-- `sorted(results, key=lambda x: x['count'], reverse=True)` (line 207):
a stable sort by occurrence count, descending. -/
def sortResults : List SearchResult → List SearchResult
  | [] => []
  | x :: xs => insertByCount x (sortResults xs)

/-- The ResultSet the `search_btn` handler displays (line 207). -/
def resultSet (docs : List FetchedDoc) (keyword : Str) : List SearchResult :=
  sortResults (search_documents docs keyword)

/-- A text-layer strategy "fails": the library raises, or its
accumulated text strips to empty. -/
def stratFails (r : Except Unit (List Str)) : Prop :=
  r = .error () ∨ ∃ ps, r = .ok ps ∧ pyStrip (pagesText ps) = []

/-- The OCR strategy "fails": the conversion raises, or there are no
pages at all. -/
def ocrFails (r : Except Unit (List Str)) : Prop :=
  r = .error () ∨ r = .ok []

/-- Every step of a document's processing fails: the fetch raises, or
the body is not a PDF, or all three strategies fail. -/
def failsAll (d : FetchedDoc) : Prop :=
  d.fetch = .error () ∨ ∃ content, d.fetch = .ok content ∧
    (startswith content pdfHeader = false ∨
      (stratFails d.plumberPages ∧ stratFails d.pypdfPages ∧ ocrFails d.ocrPages))

/-- The pattern `search_documents` compiles: the keyword, lowered and
stripped, under the case-insensitive matching convention (both sides
lowered). -/
def searchPat (kw : Str) : Str := pyLower (pyStrip (pyLower kw))

/-- The match spans the search loop computes for keyword `kw` on
document `d`. -/
def docMatches (kw : Str) (d : FetchedDoc) : List (Nat × Nat) :=
  finditer (searchPat kw) (pyLower (extract_text d).1)

/-- Spec-side: `k` has no case-insensitive literal occurrence anywhere
in `t` (positions past the end of `t` cannot host one; see
`neverOccurs_iff`). -/
def neverOccurs (k t : Str) : Bool :=
  (List.range (t.length + 1)).all fun i => !(ciOccursAt k t i)

/-- A document whose text layer yields `"xab"` on one page. -/
def dText : FetchedDoc :=
  { title := ['t'], url := ['u'], fetch := .ok pdfHeader
    plumberPages := .ok [['x', 'a', 'b']]
    pypdfPages := .error (), ocrPages := .error () }

/-- The `SearchResult` that searching `dText` for `" ab"` produces. -/
def rT : SearchResult :=
  { title := ['t'], url := ['u'], count := 1, samples := [['x', 'a', 'b']]
    extraction_method := "text".toList }

/-- A response body that is an HTML page, not a PDF. -/
def dHtml : FetchedDoc :=
  { title := ['h'], url := ['v'], fetch := .ok [60, 104, 116, 109, 108]
    plumberPages := .ok [['x']], pypdfPages := .error (), ocrPages := .error () }

/-- A document whose fetch raises. -/
def dFail : FetchedDoc :=
  { title := ['f'], url := ['w'], fetch := .error ()
    plumberPages := .error (), pypdfPages := .error (), ocrPages := .error () }

/-- A scanned document: both text-layer strategies raise and OCR
recognises one page reading `"a\nb"`. -/
def dOcrNl : FetchedDoc :=
  { title := ['o'], url := ['z'], fetch := .ok pdfHeader
    plumberPages := .error (), pypdfPages := .error ()
    ocrPages := .ok [['a', '\n', 'b']] }

/-- A document whose text contains the literal substring `"a.b(c)"`. -/
def dMeta : FetchedDoc :=
  { title := ['m'], url := ['m'], fetch := .ok pdfHeader
    plumberPages := .ok ["xa.b(c)y".toList]
    pypdfPages := .error (), ocrPages := .error () }

/-- A document whose text matches `"a.b(c)"` read as a regex pattern but
not as a literal substring. -/
def dMetaNeg : FetchedDoc :=
  { title := ['n'], url := ['n'], fetch := .ok pdfHeader
    plumberPages := .ok ["axbcy".toList]
    pypdfPages := .error (), ocrPages := .error () }

/-! ## Helper lemmas -/

theorem startswith_nil_of_ne {α : Type} [DecidableEq α] (pat : List α)
    (hp : pat ≠ []) : startswith ([] : List α) pat = false := by
  cases pat with
  | nil => exact absurd rfl hp
  | cons c cs => rfl

theorem finditGo_empty_length (t : Str) : ∀ i : Nat,
    (finditGo [] 0 t i).length = t.length + 1 := by
  induction t with
  | nil => intro i; simp [finditGo]
  | cons c cs ih => intro i; simp [finditGo, ih]

theorem mem_of_mem_pyStrip {c : Char} {s : Str} (h : c ∈ pyStrip s) : c ∈ s := by
  unfold pyStrip at h
  rw [List.mem_reverse] at h
  have h1 : c ∈ (s.dropWhile pyIsSpace).reverse :=
    (List.dropWhile_sublist pyIsSpace).mem h
  rw [List.mem_reverse] at h1
  exact (List.dropWhile_sublist pyIsSpace).mem h1

theorem insertByCount_perm (r : SearchResult) (l : List SearchResult) :
    List.Perm (insertByCount r l) (r :: l) := by
  induction l with
  | nil => simp [insertByCount]
  | cons x xs ih =>
    simp only [insertByCount]
    split
    · exact List.Perm.trans (List.Perm.cons x ih) (List.Perm.swap r x xs)
    · exact List.Perm.refl _

theorem mem_insertByCount {y r : SearchResult} {l : List SearchResult} :
    y ∈ insertByCount r l ↔ y = r ∨ y ∈ l := by
  rw [List.Perm.mem_iff (insertByCount_perm r l), List.mem_cons]

theorem insertByCount_pairwise {r : SearchResult} {l : List SearchResult}
    (h : List.Pairwise (fun a b => b.count ≤ a.count) l) :
    List.Pairwise (fun a b => b.count ≤ a.count) (insertByCount r l) := by
  induction l with
  | nil => simp [insertByCount]
  | cons x xs ih =>
    rw [List.pairwise_cons] at h
    obtain ⟨hx, hxs⟩ := h
    simp only [insertByCount]
    split
    · next hlt =>
      rw [List.pairwise_cons]
      refine ⟨fun y hy => ?_, ih hxs⟩
      rcases mem_insertByCount.mp hy with rfl | hy'
      · exact Nat.le_of_lt hlt
      · exact hx y hy'
    · next hge =>
      rw [List.pairwise_cons]
      refine ⟨fun y hy => ?_, ?_⟩
      · rcases List.mem_cons.mp hy with rfl | hy'
        · exact Nat.le_of_not_lt hge
        · exact Nat.le_trans (hx y hy') (Nat.le_of_not_lt hge)
      · rw [List.pairwise_cons]
        exact ⟨hx, hxs⟩

theorem sortResults_perm (l : List SearchResult) :
    List.Perm (sortResults l) l := by
  induction l with
  | nil => exact List.Perm.refl _
  | cons x xs ih =>
    exact List.Perm.trans (insertByCount_perm x (sortResults xs)) (ih.cons x)

theorem sortResults_pairwise (l : List SearchResult) :
    List.Pairwise (fun a b => b.count ≤ a.count) (sortResults l) := by
  induction l with
  | nil => simp [sortResults]
  | cons x xs ih => exact insertByCount_pairwise ih

theorem insertByCount_filter (r : SearchResult) (l : List SearchResult) (n : Nat) :
    (insertByCount r l).filter (fun s => s.count == n) =
      if r.count = n then r :: l.filter (fun s => s.count == n)
      else l.filter (fun s => s.count == n) := by
  induction l with
  | nil =>
    simp only [insertByCount, List.filter]
    by_cases hr : r.count = n <;>
      simp [hr, beq_eq_false_iff_ne.mpr, beq_iff_eq]
  | cons x xs ih =>
    simp only [insertByCount]
    split
    · next hlt =>
      rw [List.filter_cons, List.filter_cons, ih]
      by_cases hr : r.count = n
      · have hx : (x.count == n) = false := by
          simp only [beq_eq_false_iff_ne]
          omega
        simp [hr, hx]
      · simp [hr]
    · next hge =>
      rw [List.filter_cons]
      by_cases hr : r.count = n <;> simp [hr]

theorem sortResults_filter (l : List SearchResult) (n : Nat) :
    (sortResults l).filter (fun s => s.count == n) =
      l.filter (fun s => s.count == n) := by
  induction l with
  | nil => rfl
  | cons x xs ih =>
    simp only [sortResults]
    rw [insertByCount_filter, List.filter_cons]
    by_cases h : x.count = n <;> simp [h, ih]

theorem startswith_iff {α : Type} [DecidableEq α] (t pat : List α) :
    startswith t pat = true ↔ ∃ rest, t = pat ++ rest := by
  induction pat generalizing t with
  | nil => simp [startswith]
  | cons p ps ih =>
    cases t with
    | nil =>
      simp only [startswith, List.cons_append]
      constructor
      · intro hf; exact absurd hf (by simp)
      · rintro ⟨rest, heq⟩; exact absurd heq (by simp)
    | cons c cs =>
      simp only [startswith]
      by_cases h : c = p
      · subst h
        rw [if_pos rfl, ih]
        constructor
        · rintro ⟨rest, rfl⟩; exact ⟨rest, rfl⟩
        · rintro ⟨rest, heq⟩
          injection heq with _ h2
          exact ⟨rest, h2⟩
      · rw [if_neg h]
        constructor
        · intro hf; exact absurd hf (by simp)
        · rintro ⟨rest, heq⟩
          injection heq with h1 _
          exact absurd h1 h

theorem finditGo_skip (pat : Str) (hp : pat ≠ []) (t : Str) : ∀ (k i : Nat),
    finditGo pat k t i = finditGo pat 0 (t.drop k) (i + k) := by
  induction t with
  | nil =>
    intro k i
    cases k with
    | zero => simp
    | succ k' => simp [finditGo, hp]
  | cons c cs ih =>
    intro k i
    cases k with
    | zero => simp
    | succ k' =>
      have h1 : finditGo pat (k' + 1) (c :: cs) i = finditGo pat k' cs (i + 1) := by
        simp [finditGo]
      rw [h1, ih k' (i + 1), List.drop_succ_cons]
      congr 1
      omega

theorem finditGo_sound (pat : Str) (hp : pat ≠ []) : ∀ (n : Nat) (t : Str),
    t.length ≤ n → ∀ (i s e : Nat), (s, e) ∈ finditGo pat 0 t i →
      i ≤ s ∧ e = s + pat.length ∧
        startswith (t.drop (s - i)) pat = true := by
  intro n
  induction n with
  | zero =>
    intro t ht i s e hm
    rw [List.length_eq_zero.mp (Nat.le_zero.mp ht)] at hm
    simp [finditGo, hp] at hm
  | succ n ih =>
    intro t ht i s e hm
    cases t with
    | nil => simp [finditGo, hp] at hm
    | cons c cs =>
      have hpl : 1 ≤ pat.length := List.length_pos.mpr hp
      have hcs : cs.length ≤ n := by simp at ht; omega
      by_cases hs : startswith (c :: cs) pat = true
      · have hrw : finditGo pat 0 (c :: cs) i =
            (i, i + pat.length) :: finditGo pat (pat.length - 1) cs (i + 1) := by
          simp [finditGo, hp, hs]
        rw [hrw] at hm
        rcases List.mem_cons.mp hm with heq | hm'
        · rw [Prod.mk.injEq] at heq
          obtain ⟨rfl, rfl⟩ := heq
          refine ⟨Nat.le_refl _, rfl, ?_⟩
          simpa using hs
        · rw [finditGo_skip pat hp cs (pat.length - 1) (i + 1)] at hm'
          have hlen : (cs.drop (pat.length - 1)).length ≤ n := by
            simp [List.length_drop]
            omega
          obtain ⟨h31, h32, h33⟩ := ih _ hlen _ _ _ hm'
          refine ⟨by omega, h32, ?_⟩
          rw [List.drop_drop] at h33
          have hsi : s - i = (s - i - 1) + 1 := by omega
          rw [hsi, List.drop_succ_cons]
          have harr : (pat.length - 1) + (s - (i + 1 + (pat.length - 1))) =
              s - i - 1 := by omega
          rw [harr] at h33
          exact h33
      · have hrw : finditGo pat 0 (c :: cs) i = finditGo pat 0 cs (i + 1) := by
          simp [finditGo, hp, hs]
        rw [hrw] at hm
        obtain ⟨h31, h32, h33⟩ := ih cs hcs _ _ _ hm
        refine ⟨by omega, h32, ?_⟩
        have hsi : s - i = (s - (i + 1)) + 1 := by omega
        rw [hsi, List.drop_succ_cons]
        exact h33

theorem finditGo_chain (pat : Str) (hp : pat ≠ []) : ∀ (n : Nat) (t : Str),
    t.length ≤ n → ∀ i,
      List.Chain' (fun a b => a.2 ≤ b.1) (finditGo pat 0 t i) := by
  intro n
  induction n with
  | zero =>
    intro t ht i
    rw [List.length_eq_zero.mp (Nat.le_zero.mp ht)]
    simp [finditGo, hp]
  | succ n ih =>
    intro t ht i
    cases t with
    | nil => simp [finditGo, hp]
    | cons c cs =>
      have hpl : 1 ≤ pat.length := List.length_pos.mpr hp
      have hcs : cs.length ≤ n := by simp at ht; omega
      by_cases hs : startswith (c :: cs) pat = true
      · have hrw : finditGo pat 0 (c :: cs) i =
            (i, i + pat.length) :: finditGo pat (pat.length - 1) cs (i + 1) := by
          simp [finditGo, hp, hs]
        rw [hrw, List.chain'_cons']
        constructor
        · intro y hy
          obtain ⟨ys, ye⟩ := y
          have hy' := List.mem_of_mem_head? hy
          rw [finditGo_skip pat hp cs (pat.length - 1) (i + 1)] at hy'
          have hlen : (cs.drop (pat.length - 1)).length ≤ n := by
            simp [List.length_drop]
            omega
          obtain ⟨h1, _, _⟩ := finditGo_sound pat hp n _ hlen _ _ _ hy'
          show i + pat.length ≤ ys
          omega
        · rw [finditGo_skip pat hp cs (pat.length - 1) (i + 1)]
          have hlen : (cs.drop (pat.length - 1)).length ≤ n := by
            simp [List.length_drop]
            omega
          exact ih _ hlen _
      · have hrw : finditGo pat 0 (c :: cs) i = finditGo pat 0 cs (i + 1) := by
          simp [finditGo, hp, hs]
        rw [hrw]
        exact ih cs hcs (i + 1)

theorem finditGo_complete (pat : Str) (hp : pat ≠ []) : ∀ (n : Nat) (t : Str),
    t.length ≤ n → ∀ (i p : Nat), startswith (t.drop p) pat = true →
      ∃ s e, (s, e) ∈ finditGo pat 0 t i ∧ s ≤ i + p ∧ i + p < e := by
  intro n
  induction n with
  | zero =>
    intro t ht i p hocc
    rw [List.length_eq_zero.mp (Nat.le_zero.mp ht), List.drop_nil,
      startswith_nil_of_ne pat hp] at hocc
    exact absurd hocc (by simp)
  | succ n ih =>
    intro t ht i p hocc
    cases t with
    | nil =>
      rw [List.drop_nil, startswith_nil_of_ne pat hp] at hocc
      exact absurd hocc (by simp)
    | cons c cs =>
      have hpl : 1 ≤ pat.length := List.length_pos.mpr hp
      have hcs : cs.length ≤ n := by simp at ht; omega
      by_cases hs : startswith (c :: cs) pat = true
      · have hrw : finditGo pat 0 (c :: cs) i =
            (i, i + pat.length) :: finditGo pat (pat.length - 1) cs (i + 1) := by
          simp [finditGo, hp, hs]
        by_cases hpe : p < pat.length
        · refine ⟨i, i + pat.length, ?_, by omega, by omega⟩
          rw [hrw]
          exact List.mem_cons_self _ _
        · have hocc' : startswith
              ((cs.drop (pat.length - 1)).drop (p - pat.length)) pat = true := by
            rw [List.drop_drop]
            have h1 : (pat.length - 1) + (p - pat.length) = p - 1 := by omega
            rw [h1]
            have h2 : (c :: cs).drop p = cs.drop (p - 1) := by
              cases p with
              | zero => omega
              | succ q => simp
            rw [← h2]
            exact hocc
          have hlen : (cs.drop (pat.length - 1)).length ≤ n := by
            simp [List.length_drop]
            omega
          obtain ⟨s, e, hm, h1, h2⟩ :=
            ih _ hlen (i + 1 + (pat.length - 1)) (p - pat.length) hocc'
          refine ⟨s, e, ?_, by omega, by omega⟩
          rw [hrw]
          refine List.mem_cons_of_mem _ ?_
          rw [finditGo_skip pat hp cs (pat.length - 1) (i + 1)]
          exact hm
      · have hp0 : p ≠ 0 := by
          rintro rfl
          rw [List.drop_zero] at hocc
          exact hs hocc
        have hocc' : startswith (cs.drop (p - 1)) pat = true := by
          have h3 : p = (p - 1) + 1 := by omega
          rw [h3, List.drop_succ_cons] at hocc
          exact hocc
        obtain ⟨s, e, hm, h1, h2⟩ := ih cs hcs (i + 1) (p - 1) hocc'
        refine ⟨s, e, ?_, by omega, by omega⟩
        rw [show finditGo pat 0 (c :: cs) i = finditGo pat 0 cs (i + 1) from by
          simp [finditGo, hp, hs]]
        exact hm

theorem neverOccurs_iff (k t : Str) (hk : k ≠ []) :
    neverOccurs k t = true ↔ ∀ i, ciOccursAt k t i = false := by
  unfold neverOccurs
  rw [List.all_eq_true]
  constructor
  · intro h i
    by_cases hi : i < t.length + 1
    · have h2 := h i (List.mem_range.mpr hi)
      simpa using h2
    · unfold ciOccursAt
      rw [List.drop_eq_nil_of_le (by simp [pyLower]; omega)]
      exact startswith_nil_of_ne _ (by simpa [pyLower] using hk)
  · intro h i _
    simp [h i]

theorem stratOutput_eq_none {r : Except Unit (List Str)} :
    stratOutput r = none ↔ stratFails r := by
  cases r with
  | error u => cases u; simp [stratOutput, stratFails]
  | ok ps =>
    simp only [stratOutput, stratFails]
    by_cases h : pyStrip (pagesText ps) = [] <;> simp [h]

theorem collapseGo_space {s : Str} : ∀ {b : Bool} {c : Char},
    c ∈ collapseGo b s → pyIsSpace c = true → c = ' ' := by
  induction s with
  | nil => intro b c h; simp [collapseGo] at h
  | cons x xs ih =>
    intro b c h
    simp only [collapseGo] at h
    by_cases hx : pyIsSpace x = true
    · rw [if_pos hx] at h
      cases b with
      | true => exact ih h
      | false =>
        rcases List.mem_cons.mp h with rfl | h'
        · intro _; rfl
        · exact ih h'
    · rw [if_neg hx] at h
      rcases List.mem_cons.mp h with rfl | h'
      · intro hc; exact absurd hc hx
      · exact ih h'

theorem collapseGo_true_head (s : Str) :
    ∀ c, (collapseGo true s).head? = some c → pyIsSpace c = false := by
  induction s with
  | nil => intro c h; simp [collapseGo] at h
  | cons x xs ih =>
    intro c h
    simp only [collapseGo] at h
    by_cases hx : pyIsSpace x = true
    · rw [if_pos hx] at h
      exact ih c h
    · rw [if_neg hx] at h
      simp only [List.head?_cons, Option.some.injEq] at h
      rw [← h]
      simpa using hx

theorem collapseGo_chain (s : Str) : ∀ b : Bool,
    List.Chain' (fun a c => pyIsSpace a = true → pyIsSpace c = false)
      (collapseGo b s) := by
  induction s with
  | nil => intro b; simp [collapseGo]
  | cons x xs ih =>
    intro b
    simp only [collapseGo]
    by_cases hx : pyIsSpace x = true
    · rw [if_pos hx]
      cases b with
      | true => simpa using ih true
      | false =>
        rw [if_neg (by simp), List.chain'_cons']
        exact ⟨fun y hy _ => collapseGo_true_head xs y hy, ih true⟩
    · rw [if_neg hx]
      rw [List.chain'_cons']
      exact ⟨fun y _ ha => absurd ha hx, ih false⟩

theorem pyStrip_infix (s : Str) : ∃ l r, s = l ++ (pyStrip s ++ r) := by
  refine ⟨s.takeWhile pyIsSpace,
    ((s.dropWhile pyIsSpace).reverse.takeWhile pyIsSpace).reverse, ?_⟩
  conv_lhs => rw [← List.takeWhile_append_dropWhile pyIsSpace s]
  congr 1
  unfold pyStrip
  rw [← List.reverse_append, List.takeWhile_append_dropWhile,
    List.reverse_reverse]

theorem chain'_of_middle {R : Char → Char → Prop} {l m r : Str}
    (h : List.Chain' R (l ++ (m ++ r))) : List.Chain' R m :=
  ((List.chain'_append.mp ((List.chain'_append.mp h).2.1)).1)

theorem pyStrip_chain' {R : Char → Char → Prop} {s : Str}
    (h : List.Chain' R s) : List.Chain' R (pyStrip s) := by
  obtain ⟨l, r, hs⟩ := pyStrip_infix s
  rw [hs] at h
  exact chain'_of_middle h

theorem pagesText_space (pages : List Str) :
    ∀ c ∈ pagesText pages, pyIsSpace c = true → c = ' ' := by
  unfold pagesText
  suffices h : ∀ acc : Str, (∀ c ∈ acc, pyIsSpace c = true → c = ' ') →
      ∀ c ∈ pages.foldl (fun text p =>
        if p ≠ [] then text ++ pyStrip (collapseWS p) ++ [' '] else text) acc,
      pyIsSpace c = true → c = ' ' by
    exact h [] (by simp)
  induction pages with
  | nil => intro acc hacc c hc; exact hacc c hc
  | cons p ps ih =>
    intro acc hacc c hc
    simp only [List.foldl_cons] at hc
    refine ih _ ?_ c hc
    intro c' hc'
    by_cases hp : p ≠ []
    · rw [if_pos hp] at hc'
      rcases List.mem_append.mp hc' with hc'' | hc''
      · rcases List.mem_append.mp hc'' with hc3 | hc3
        · exact hacc c' hc3
        · exact collapseGo_space (mem_of_mem_pyStrip hc3)
      · intro _
        simpa using hc''
    · rw [if_neg hp] at hc'
      exact hacc c' hc'

theorem ocr_foldl_append (ps : List Str) (acc : Str) :
    ps.foldl (fun text p => text ++ p ++ ['\n']) acc =
      acc ++ ps.foldl (fun text p => text ++ p ++ ['\n']) [] := by
  induction ps generalizing acc with
  | nil => simp
  | cons q qs ih =>
    simp only [List.foldl_cons]
    rw [ih (acc ++ q ++ ['\n']), ih ([] ++ q ++ ['\n'])]
    simp

theorem ocr_contains_page {p : Str} {ps : List Str} (h : p ∈ ps) :
    containsSeg (extract_text_with_ocr (.ok ps)) p := by
  induction ps with
  | nil => simp at h
  | cons q qs ih =>
    rcases List.mem_cons.mp h with rfl | h'
    · refine ⟨[], '\n' :: qs.foldl (fun text x => text ++ x ++ ['\n']) [], ?_⟩
      simp only [extract_text_with_ocr, List.foldl_cons]
      rw [ocr_foldl_append]
      simp
    · obtain ⟨l, r, hr⟩ := ih h'
      refine ⟨(q ++ ['\n']) ++ l, r, ?_⟩
      simp only [extract_text_with_ocr, List.foldl_cons]
      rw [ocr_foldl_append]
      simp only [extract_text_with_ocr] at hr
      rw [hr]
      simp

theorem snippet_no_newline {text : Str} {m : Nat × Nat} {c : Char}
    (h : c ∈ snippet text m) : c ≠ '\n' := by
  have h1 := mem_of_mem_pyStrip h
  obtain ⟨a, _, ha⟩ := List.mem_map.mp h1
  intro hc
  rw [hc] at ha
  by_cases hn : a = '\n'
  · rw [if_pos hn] at ha
    exact absurd ha (by decide)
  · rw [if_neg hn] at ha
    exact hn ha

/-! ## Claim theorems -/

/-- C3: if the fetched body does not start with the `%PDF` magic header,
`extract_text` returns the empty string with no extraction strategy
invoked, and the document is excluded from the results. -/
theorem C3_header_reject (d : FetchedDoc) (content : List Nat) (kw : Str)
    (hf : d.fetch = .ok content)
    (hh : startswith content pdfHeader = false) :
    extract_text d = ([], []) ∧ processDoc kw d = none ∧
      ∀ xs ys, search_documents (xs ++ d :: ys) kw =
        search_documents (xs ++ ys) kw := by
  have h1 : extract_text d = ([], []) := by
    simp [extract_text, hf, hh]
  have h2 : processDoc kw d = none := by
    simp [processDoc, h1]
  refine ⟨h1, h2, fun xs ys => ?_⟩
  simp [search_documents, List.filterMap_append, List.filterMap_cons, h2]

theorem C3_witness :
    extract_text dHtml = ([], []) ∧ processDoc ['x'] dHtml = none := by
  have h := C3_header_reject dHtml [60, 104, 116, 109, 108] ['x'] rfl (by decide)
  exact ⟨h.1, h.2.1⟩

/-- C4 counterexample: with a blank (whitespace-only) keyword and one
document whose extracted text is `"xab "`, the search is not a no-op:
it produces a match with occurrence count 5 (`len(text) + 1`). -/
theorem C4_counterexample :
    search_documents [dText] "  ".toList ≠ [] ∧
      (search_documents [dText] "  ".toList).map (fun r => r.count) = [5] := by
  decide

/-- C4 amended: a blank keyword is not rejected anywhere: it strips to
the empty string, whose compiled pattern matches at every position, so
every document with non-empty extracted text is reported as a match
with occurrence count `len(text) + 1`. -/
theorem C4_blank_keyword (kw : Str) (d : FetchedDoc)
    (hk : pyStrip (pyLower kw) = [])
    (ht : (extract_text d).1 ≠ []) :
    Option.map (fun r => r.count) (processDoc kw d) =
      some ((extract_text d).1.length + 1) := by
  have hlen : (finditer [] (pyLower (extract_text d).1)).length =
      (extract_text d).1.length + 1 := by
    unfold finditer
    rw [finditGo_empty_length]
    simp [pyLower]
  have hne : finditer [] (pyLower (extract_text d).1) ≠ [] := by
    intro h
    rw [h] at hlen
    simp at hlen
  simp only [processDoc]
  rw [hk, show pyLower ([] : Str) = [] from rfl, if_neg ht, if_neg hne]
  simpa using hlen

theorem C4_witness :
    Option.map (fun r => r.count) (processDoc "  ".toList dText) =
      some ((extract_text dText).1.length + 1) :=
  C4_blank_keyword "  ".toList dText (by decide) (by decide)

/-- C5: the displayed ResultSet is a permutation of the matches list,
sorted by occurrence count descending, and for every count value the
subsequence of results carrying it is exactly the one of the unsorted
matches list, in discovery order (stability). -/
theorem C5_resultset_sorted_stable (docs : List FetchedDoc) (kw : Str) :
    List.Perm (resultSet docs kw) (search_documents docs kw) ∧
    List.Pairwise (fun a b => b.count ≤ a.count) (resultSet docs kw) ∧
    ∀ n : Nat, (resultSet docs kw).filter (fun s => s.count == n) =
      (search_documents docs kw).filter (fun s => s.count == n) :=
  ⟨sortResults_perm _, sortResults_pairwise _, fun n => sortResults_filter _ n⟩

/-- C7: the keyword `"a.b(c)"` is matched only as a literal substring:
the document with text `"xa.b(c)y "` yields one match while the document
with text `"axbcy "` (which the unescaped regex would match) yields
none, and the literal occurrence sits at position 1 of the former. -/
theorem C7_literal_keyword :
    Option.map (fun r => r.count) (processDoc "a.b(c)".toList dMeta) = some 1 ∧
    processDoc "a.b(c)".toList dMetaNeg = none ∧
    ciOccursAt "a.b(c)".toList (extract_text dMeta).1 1 = true := by
  decide

/-- C10: every result record the search appends carries
`extraction_method = "text"`; the `'ocr'` label is unreachable because
the conditional is only evaluated under the `if text:` guard. -/
theorem C10_extraction_method_text (docs : List FetchedDoc) (kw : Str)
    (r : SearchResult) (hr : r ∈ search_documents docs kw) :
    r.extraction_method = "text".toList := by
  obtain ⟨d, _, hpd⟩ := List.mem_filterMap.mp hr
  by_cases h1 : (extract_text d).1 = []
  · simp [processDoc, h1] at hpd
  · by_cases h2 : finditer (pyLower (pyStrip (pyLower kw)))
        (pyLower (extract_text d).1) = []
    · simp [processDoc, h1, h2] at hpd
    · have hpos : 0 < (extract_text d).1.length := List.length_pos.mpr h1
      simp only [processDoc, if_neg h1, if_neg h2, Option.some.injEq] at hpd
      rw [← hpd]
      simp [hpos]

theorem C10_witness : rT.extraction_method = "text".toList :=
  C10_extraction_method_text [dText] " ab".toList rT (by decide)

/-- C2: once the header check has passed, the strategies run in the
fixed order pdfplumber, PyPDF2, OCR, short-circuiting on the first whose
trimmed output is non-empty: a non-empty pdfplumber result means neither
PyPDF2 nor OCR is invoked, PyPDF2 is invoked exactly when pdfplumber
failed, and OCR exactly when both text-layer strategies failed. -/
theorem C2_strategy_order (d : FetchedDoc) (content : List Nat)
    (hf : d.fetch = .ok content)
    (hh : startswith content pdfHeader = true) :
    ((∃ ps, d.plumberPages = .ok ps ∧ pyStrip (pagesText ps) ≠ []) →
      (extract_text d).2 = [Strategy.plumber]) ∧
    (Strategy.pypdf ∈ (extract_text d).2 ↔ stratFails d.plumberPages) ∧
    (Strategy.ocr ∈ (extract_text d).2 ↔
      stratFails d.plumberPages ∧ stratFails d.pypdfPages) ∧
    ((extract_text d).2 = [Strategy.plumber] ∨
      (extract_text d).2 = [Strategy.plumber, Strategy.pypdf] ∨
      (extract_text d).2 = [Strategy.plumber, Strategy.pypdf, Strategy.ocr]) := by
  have hsome : ∀ ps, d.plumberPages = .ok ps → pyStrip (pagesText ps) ≠ [] →
      stratOutput d.plumberPages = some (pagesText ps) := by
    intro ps hps hne
    simp [stratOutput, hps, hne]
  cases hA : stratOutput d.plumberPages with
  | some tA =>
    have htr : (extract_text d).2 = [Strategy.plumber] := by
      simp [extract_text, hf, hh, hA]
    have hnf : ¬ stratFails d.plumberPages := by
      rw [← stratOutput_eq_none, hA]
      simp
    refine ⟨fun _ => htr, ?_, ?_, Or.inl htr⟩
    · rw [htr]
      simp [hnf]
    · rw [htr]
      simp [hnf]
  | none =>
    have hfA : stratFails d.plumberPages := stratOutput_eq_none.mp hA
    have hne : ¬ (∃ ps, d.plumberPages = .ok ps ∧ pyStrip (pagesText ps) ≠ []) := by
      rintro ⟨ps, hps, hne'⟩
      rw [hsome ps hps hne'] at hA
      exact Option.some_ne_none _ hA
    cases hB : stratOutput d.pypdfPages with
    | some tB =>
      have htr : (extract_text d).2 = [Strategy.plumber, Strategy.pypdf] := by
        simp [extract_text, hf, hh, hA, hB]
      have hnfB : ¬ stratFails d.pypdfPages := by
        rw [← stratOutput_eq_none, hB]
        simp
      refine ⟨fun h => absurd h hne, ?_, ?_, Or.inr (Or.inl htr)⟩
      · rw [htr]
        simp [hfA]
      · rw [htr]
        simp [hnfB]
    | none =>
      have hfB : stratFails d.pypdfPages := stratOutput_eq_none.mp hB
      have htr : (extract_text d).2 =
          [Strategy.plumber, Strategy.pypdf, Strategy.ocr] := by
        simp [extract_text, hf, hh, hA, hB]
      refine ⟨fun h => absurd h hne, ?_, ?_, Or.inr (Or.inr htr)⟩
      · rw [htr]
        simp [hfA]
      · rw [htr]
        simp [hfA, hfB]

theorem C2_witness : (extract_text dText).2 = [Strategy.plumber] :=
  (C2_strategy_order dText pdfHeader rfl (by decide)).1
    ⟨[['x', 'a', 'b']], rfl, by decide⟩

/-- C9: per-document failures are isolated.  Processing a list of
documents is the concatenation of processing each document alone, and a
document for which the fetch raises, the header check fails, or all
three strategies fail contributes empty text, is excluded, and its
removal leaves the results of the other documents unchanged. -/
theorem C9_per_document_isolation (kw : Str) (d : FetchedDoc)
    (xs ys : List FetchedDoc) :
    (search_documents (xs ++ d :: ys) kw =
      search_documents xs kw ++ (processDoc kw d).toList ++
        search_documents ys kw) ∧
    (failsAll d → (extract_text d).1 = [] ∧ processDoc kw d = none ∧
      search_documents (xs ++ d :: ys) kw =
        search_documents xs kw ++ search_documents ys kw) := by
  constructor
  · simp only [search_documents, List.filterMap_append, List.filterMap_cons]
    cases h : processDoc kw d <;> simp [h]
  · intro hfail
    have htext : (extract_text d).1 = [] := by
      rcases hfail with hf | ⟨content, hfc, hrest⟩
      · simp [extract_text, hf]
      · rcases hrest with hh | ⟨hA, hB, hocr⟩
        · simp [extract_text, hfc, hh]
        · by_cases hh : startswith content pdfHeader = false
          · simp [extract_text, hfc, hh]
          · have hh' : startswith content pdfHeader = true := by
              revert hh
              cases startswith content pdfHeader <;> simp
            have hA' : stratOutput d.plumberPages = none :=
              stratOutput_eq_none.mpr hA
            have hB' : stratOutput d.pypdfPages = none :=
              stratOutput_eq_none.mpr hB
            rcases hocr with ho | ho <;>
              simp [extract_text, hfc, hh', hA', hB', extract_text_with_ocr, ho]
    have hnone : processDoc kw d = none := by
      simp [processDoc, htext]
    refine ⟨htext, hnone, ?_⟩
    simp [search_documents, List.filterMap_append, List.filterMap_cons, hnone]

theorem C9_witness :
    (extract_text dFail).1 = [] ∧
      search_documents ([dText] ++ dFail :: []) " ab".toList =
        search_documents [dText] " ab".toList ++
          search_documents [] " ab".toList := by
  have h := (C9_per_document_isolation " ab".toList dFail [dText] []).2
    (Or.inl rfl)
  exact ⟨h.1, h.2.2⟩

/-- C6: snippet windows are clamped to the text bounds
(`start = max(0, p - 30) ≥ 0`, `end = min(len(text), e + 30) ≤
len(text)`), snippets never contain a newline, and only the first three
matches in text order yield snippets. -/
theorem C6_snippet_bounds (text : Str) (p e : Nat) (kw : Str)
    (d : FetchedDoc) :
    0 ≤ snipStart p ∧
    snipStart p = max 0 ((p : Int) - 30) ∧
    snipEnd text e ≤ (text.length : Int) ∧
    snipEnd text e = min (text.length : Int) ((e : Int) + 30) ∧
    (∀ c, c ∈ snippet text (p, e) → c ≠ '\n') ∧
    (∀ r, processDoc kw d = some r →
      r.samples = ((finditer (pyLower (pyStrip (pyLower kw)))
        (pyLower (extract_text d).1)).take 3).map (snippet (extract_text d).1) ∧
      r.samples.length = min 3 r.count) := by
  refine ⟨le_max_left 0 _, rfl, min_le_left _ _, rfl,
    fun c hc => snippet_no_newline hc, fun r hr => ?_⟩
  by_cases h1 : (extract_text d).1 = []
  · simp [processDoc, h1] at hr
  · by_cases h2 : finditer (pyLower (pyStrip (pyLower kw)))
        (pyLower (extract_text d).1) = []
    · simp [processDoc, h1, h2] at hr
    · simp only [processDoc, if_neg h1, if_neg h2, Option.some.injEq] at hr
      rw [← hr]
      refine ⟨rfl, ?_⟩
      simp [List.length_take]

theorem C6_witness :
    ('x' ≠ '\n') ∧ rT.samples.length = min 3 rT.count := by
  have h := C6_snippet_bounds (extract_text dText).1 1 3 " ab".toList dText
  exact ⟨h.2.2.2.2.1 'x' (by decide), (h.2.2.2.2.2 rT (by decide)).2⟩

/-- C8 counterexample: when OCR is the strategy that succeeds, the
returned text keeps raw newlines (no whitespace collapsing), so a
keyword spanning a line boundary fails to match: the OCR page `"a\nb"`
yields the text `"a\nb\n"` and the keyword `"a b"` finds no match. -/
theorem C8_counterexample :
    (extract_text dOcrNl).1 = ['a', '\n', 'b', '\n'] ∧
    '\n' ∈ (extract_text dOcrNl).1 ∧
    processDoc ['a', ' ', 'b'] dOcrNl = none := by
  decide

/-- C8 amended: the two text-layer strategies normalize per page —
every whitespace character surviving in their output is a plain space
and, within each page's normalized text, whitespace characters are
never adjacent — while the OCR strategy performs no normalization:
every raw page text appears verbatim inside its output. -/
theorem C8_page_normalization (pages : List Str) (p : Str) (ps : List Str) :
    (∀ c ∈ pagesText pages, pyIsSpace c = true → c = ' ') ∧
    List.Chain' (fun a b => pyIsSpace a = true → pyIsSpace b = false)
      (pyStrip (collapseWS p)) ∧
    (p ∈ ps → containsSeg (extract_text_with_ocr (.ok ps)) p) :=
  ⟨pagesText_space pages, pyStrip_chain' (collapseGo_chain p false),
    fun h => ocr_contains_page h⟩

theorem C8_witness :
    containsSeg (extract_text_with_ocr (.ok [['x', '\n']])) ['x', '\n'] :=
  (C8_page_normalization [] ['x', '\n'] [['x', '\n']]).2.2 (by decide)

/-- C1 counterexample: the keyword `" ab"` (leading space) has no
case-insensitive occurrence anywhere in the extracted text `"xab "`,
yet the search strips the keyword first and reports a match with
occurrence count 1 — so the reported count is not the occurrence count
of the keyword as supplied, and a SearchMatch is produced although that
count is 0. -/
theorem C1_counterexample :
    Option.map (fun r => r.count) (processDoc " ab".toList dText) = some 1 ∧
    neverOccurs " ab".toList (extract_text dText).1 = true := by
  decide

/-- C1 amended: the reported occurrence count is the number of leftmost
non-overlapping case-insensitive literal occurrences of the *stripped*
keyword: the count is the length of the computed span list, every
reported span is a genuine occurrence of the stripped keyword with the
right width, the spans are pairwise non-overlapping and in text order,
no occurrence of the stripped keyword is disjoint from all of them
(maximality), and a SearchMatch is produced exactly when the extracted
text is non-empty and the span list is non-empty. -/
theorem C1_occurrence_count (kw : Str) (d : FetchedDoc) :
    (Option.map (fun r => r.count) (processDoc kw d) =
      if (extract_text d).1 = [] then none
      else if docMatches kw d = [] then none
      else some (docMatches kw d).length) ∧
    (pyStrip (pyLower kw) ≠ [] → ∀ s e, (s, e) ∈ docMatches kw d →
      e = s + (pyStrip (pyLower kw)).length ∧
      ciOccursAt (pyStrip (pyLower kw)) (extract_text d).1 s = true) ∧
    (pyStrip (pyLower kw) ≠ [] →
      List.Chain' (fun a b => a.2 ≤ b.1) (docMatches kw d)) ∧
    (pyStrip (pyLower kw) ≠ [] → ∀ p,
      ciOccursAt (pyStrip (pyLower kw)) (extract_text d).1 p = true →
      ∃ s e, (s, e) ∈ docMatches kw d ∧ s ≤ p ∧ p < e) := by
  have hpatlen : (searchPat kw).length = (pyStrip (pyLower kw)).length := by
    simp [searchPat, pyLower]
  have hpatne : pyStrip (pyLower kw) ≠ [] → searchPat kw ≠ [] := by
    intro h
    simpa [searchPat, pyLower] using h
  have hmatch : docMatches kw d =
      finditGo (searchPat kw) 0 (pyLower (extract_text d).1) 0 := rfl
  refine ⟨?_, ?_, ?_, ?_⟩
  · by_cases h1 : (extract_text d).1 = []
    · simp [processDoc, docMatches, searchPat, h1]
    · by_cases h2 : docMatches kw d = []
      · rw [if_neg h1, if_pos h2]
        have h2' : finditer (pyLower (pyStrip (pyLower kw)))
            (pyLower (extract_text d).1) = [] := h2
        simp [processDoc, h1, h2']
      · rw [if_neg h1, if_neg h2]
        have h2' : finditer (pyLower (pyStrip (pyLower kw)))
            (pyLower (extract_text d).1) ≠ [] := h2
        simp only [processDoc, if_neg h1, if_neg h2']
        rfl
  · intro hkne s e hm
    rw [hmatch] at hm
    obtain ⟨_, h32, h33⟩ := finditGo_sound (searchPat kw) (hpatne hkne)
      (pyLower (extract_text d).1).length _ (Nat.le_refl _) 0 s e hm
    refine ⟨by rw [h32, hpatlen], ?_⟩
    simpa [ciOccursAt, searchPat] using h33
  · intro hkne
    rw [hmatch]
    exact finditGo_chain (searchPat kw) (hpatne hkne)
      (pyLower (extract_text d).1).length _ (Nat.le_refl _) 0
  · intro hkne p hocc
    have hocc' : startswith ((pyLower (extract_text d).1).drop p)
        (searchPat kw) = true := by
      simpa [ciOccursAt, searchPat] using hocc
    obtain ⟨s, e, hm, h1, h2⟩ := finditGo_complete (searchPat kw) (hpatne hkne)
      (pyLower (extract_text d).1).length _ (Nat.le_refl _) 0 p hocc'
    refine ⟨s, e, ?_, by omega, by omega⟩
    rw [hmatch]
    exact hm

theorem C1_witness :
    Option.map (fun r => r.count) (processDoc "ab".toList dText) = some 1 ∧
    ciOccursAt (pyStrip (pyLower "ab".toList)) (extract_text dText).1 1 = true := by
  have h := C1_occurrence_count "ab".toList dText
  refine ⟨h.1.trans (by decide), ?_⟩
  exact (h.2.1 (by decide) 1 3 (by decide)).2

end CDSCO
